import Mathlib

/-!
Verification of the Sudoku constraint-satisfaction core (solver, uniqueness
counter and puzzle generator) of the repository, via a shallow embedding of
the Python code into Lean.

A grid is a 9x9 matrix of natural numbers, 0 denoting an empty cell.  The
Python board is a mutable list of lists; we model it as a function
`Fin 9 → Fin 9 → Nat` and thread the state through the recursion explicitly,
so that in-place mutation and its undo discipline become visible in the
return values.  The recursion of `solve` and `_find_all_solutions` is
bounded in Python only by the number of empty cells (at most 81); we embed
it with an explicit fuel parameter fixed at 82 and prove that any fuel
larger than the number of empty cells yields the same result.
-/

set_option maxRecDepth 4000
set_option linter.constructorNameAsVariable false

namespace Sudoku

/-- A 9x9 board of cell values; 0 means empty, 1..9 a placed digit. -/
def Grid : Type := Fin 9 → Fin 9 → Nat

instance : DecidableEq Grid := by
  unfold Grid
  infer_instance

/-- Writing value `v` into cell `(r, c)`, the pure counterpart of
`board[r][c] = v`. -/
def setCell (g : Grid) (r c : Fin 9) (v : Nat) : Grid :=
  fun i j => if i = r ∧ j = c then v else g i j

/-- Index of the `a`-th row (or column) of the 3x3 box containing row
(or column) `x`: the Python `3 * (row // 3) + i`. -/
def boxIdx (x : Fin 9) (a : Fin 3) : Fin 9 :=
  ⟨3 * (x.val / 3) + a.val, by omega⟩

/-- `SmartSudokuSolver.is_valid_move`: placing `num` at `(row, col)` is
allowed iff `num` does not already occur elsewhere in the row, the column,
or the 3x3 box; the cell `(row, col)` itself is skipped in all three scans. -/
def is_valid_move (board : Grid) (row col : Fin 9) (num : Nat) : Bool :=
  ((List.finRange 9).all fun j => j == col || board row j != num) &&
  ((List.finRange 9).all fun i => i == row || board i col != num) &&
  ((List.finRange 3).all fun a => (List.finRange 3).all fun b =>
    (boxIdx row a == row && boxIdx col b == col) ||
      board (boxIdx row a) (boxIdx col b) != num)

/-- `SmartSudokuSolver.find_empty`: the first cell equal to 0 in row-major
order, or `none` when the board is full. -/
def find_empty (board : Grid) : Option (Fin 9 × Fin 9) :=
  (List.finRange 9).findSome? fun i =>
    (List.finRange 9).findSome? fun j =>
      if board i j = 0 then some (i, j) else none

/-- The digits tried by the backtracking loops, Python `range(1, 10)`. -/
def digits : List Nat := List.range' 1 9

/-- The inner `for num in range(1, 10)` loop of `SmartSudokuSolver.solve`,
with the recursive call abstracted as `S`.  The board state is threaded:
a successful recursive call is propagated, a failed one leaves its restored
board, in which the tried digit is reset to 0 before the next iteration. -/
def solveLoop (S : Grid → Bool × Grid) (r c : Fin 9) :
    List Nat → Grid → Bool × Grid
  | [], g => (false, g)
  | n :: ns, g =>
    if is_valid_move g r c n then
      let p := S (setCell g r c n)
      if p.1 then p else solveLoop S r c ns (setCell p.2 r c 0)
    else solveLoop S r c ns g

/-- `SmartSudokuSolver.solve` with an explicit recursion-depth fuel:
find the first empty cell; if none, report success; otherwise run the
digit loop, recursing with one unit of fuel less. -/
def solveAux : Nat → Grid → Bool × Grid
  | 0, g => (false, g)
  | fuel + 1, g =>
    match find_empty g with
    | none => (true, g)
    | some (r, c) => solveLoop (fun g2 => solveAux fuel g2) r c digits g

/-- `SmartSudokuSolver.solve`: recursion depth is bounded by the number of
empty cells, which is at most 81, so fuel 82 always suffices (proved below
as fuel independence). -/
def solve (board : Grid) : Bool × Grid := solveAux 82 board

/-- `SmartSudokuSolver.is_valid_puzzle`: every non-zero cell, temporarily
cleared, must still be a valid move for its own value. -/
def is_valid_puzzle (board : Grid) : Bool :=
  (List.finRange 9).all fun i => (List.finRange 9).all fun j =>
    if board i j ≠ 0 then is_valid_move (setCell board i j 0) i j (board i j)
    else true

/-- The inner digit loop of `SmartSudokuSolver._find_all_solutions`, with
the recursive call abstracted as `S`; the board and the accumulated
solution list are threaded, and the tried digit is always reset to 0. -/
def findAllLoop (S : Grid → List Grid → Grid × List Grid) (r c : Fin 9) :
    List Nat → Grid → List Grid → Grid × List Grid
  | [], g, sols => (g, sols)
  | n :: ns, g, sols =>
    if is_valid_move g r c n then
      let p := S (setCell g r c n) sols
      findAllLoop S r c ns (setCell p.1 r c 0) p.2
    else findAllLoop S r c ns g sols

/-- `SmartSudokuSolver._find_all_solutions` with explicit fuel: stop when
the solution list has reached `maxSols`; append the board when it is full;
otherwise run the digit loop on the first empty cell. -/
def findAllAux : Nat → Nat → Grid → List Grid → Grid × List Grid
  | 0, _, g, sols => (g, sols)
  | fuel + 1, maxSols, g, sols =>
    if sols.length ≥ maxSols then (g, sols)
    else
      match find_empty g with
      | none => (g, sols ++ [g])
      | some (r, c) =>
        findAllLoop (fun g2 s2 => findAllAux fuel maxSols g2 s2) r c digits g sols

/-- `copy.deepcopy` on a purely functional grid is the identity; it is kept
explicit because `count_solutions` passes a private copy to the search. -/
def deepcopy (g : Grid) : Grid := fun i j => g i j

/-- `SmartSudokuSolver.count_solutions`: run the enumeration on a private
copy of the board with an empty accumulator and return how many solutions
were collected. -/
def count_solutions (board : Grid) (limit : Nat) : Nat :=
  (findAllAux 82 limit (deepcopy board) []).2.length

/-- The `difficulty_levels` dictionary of `generate_puzzle`. -/
def difficulty_levels (difficulty : String) : Option Nat :=
  if difficulty = "easy" then some 40
  else if difficulty = "medium" then some 32
  else if difficulty = "hard" then some 26
  else if difficulty = "expert" then some 22
  else none

/-- `difficulty_levels.get(difficulty, 32)`: the clue target, with the
silent fallback to 32. -/
def cluesFor (difficulty : String) : Nat :=
  (difficulty_levels difficulty).getD 32

/-- The freshly constructed all-empty board of `generate_puzzle`. -/
def zeroGrid : Grid := fun _ _ => 0

/-- One iteration of the seeding loop of `generate_puzzle`: fill the
diagonal box `b` (rows and columns `3*b .. 3*b+2`) with the entries of
`nums`, consumed in row-major order (`idx = 3*i + j`). -/
def fillBox (g : Grid) (b : Fin 3) (nums : List Nat) : Grid :=
  (List.finRange 3).foldl
    (fun g1 i =>
      (List.finRange 3).foldl
        (fun g2 j =>
          setCell g2 ⟨3 * b.val + i.val, by omega⟩ ⟨3 * b.val + j.val, by omega⟩
            (nums.getD (3 * i.val + j.val) 0))
        g1)
    g

/-- The seeded board of `generate_puzzle`: the three diagonal boxes filled
with the three shuffled digit lists, all other cells 0. -/
def seedDiagonal (nums0 nums1 nums2 : List Nat) : Grid :=
  fillBox (fillBox (fillBox zeroGrid 0 nums0) 1 nums1) 2 nums2

/-- The cell-removal loop of `generate_puzzle`: walk the shuffled
coordinate list; stop when `removed` reaches `target`; tentatively zero
each cell and keep the removal exactly when the puzzle still has a unique
solution, otherwise restore the backup. -/
def digLoop : List (Fin 9 × Fin 9) → Grid → Nat → Nat → Grid
  | [], board, _, _ => board
  | (i, j) :: rest, board, removed, target =>
    if removed ≥ target then board
    else
      let b2 := setCell board i j 0
      if count_solutions b2 2 = 1 then digLoop rest b2 (removed + 1) target
      else digLoop rest board removed target

/-- `generate_puzzle`, with the random shuffles made explicit parameters:
`nums0`, `nums1`, `nums2` are the three shuffled copies of `[1..9]` used to
seed the diagonal boxes and `cells` is the shuffled list of all 81
coordinates used by the removal loop.  Returns the (puzzle, solution)
pair. -/
def generate_puzzle (difficulty : String) (nums0 nums1 nums2 : List Nat)
    (cells : List (Fin 9 × Fin 9)) : Grid × Grid :=
  let clues := cluesFor difficulty
  let seeded := seedDiagonal nums0 nums1 nums2
  let board := (solve seeded).2
  let solution := deepcopy board
  let puzzle := digLoop cells board 0 (81 - clues)
  (puzzle, solution)

/-- Build a grid from a row-major list of rows (missing entries are 0);
used only to state concrete instances. -/
def gridOfLists (xs : List (List Nat)) : Grid :=
  fun i j => (xs.getD i.val []).getD j.val 0

/-- A fully solved, rule-respecting reference grid. -/
def gFull : Grid := gridOfLists
  [[1,2,3,4,5,6,7,8,9],
   [4,5,6,7,8,9,1,2,3],
   [7,8,9,1,2,3,4,5,6],
   [2,3,4,5,6,7,8,9,1],
   [5,6,7,8,9,1,2,3,4],
   [8,9,1,2,3,4,5,6,7],
   [3,4,5,6,7,8,9,1,2],
   [6,7,8,9,1,2,3,4,5],
   [9,1,2,3,4,5,6,7,8]]

/-- A grid on which `solve` fails at once: cell (0,0) is empty, digits 1..8
are blocked by row 0 and digit 9 by column 0. -/
def gBad : Grid := gridOfLists
  [[0,1,2,3,4,5,6,7,8],
   [9,0,0,0,0,0,0,0,0]]

/-- The full grid every cell of which holds 1; it is free of empty cells
but massively violates the Sudoku rules. -/
def allOnes : Grid := fun _ _ => 1

/-- The full grid every cell of which holds 5. -/
def allFives : Grid := fun _ _ => 5

/-- A full grid with pairwise distinct values 10..90: conflict-free in the
sense of `is_valid_puzzle`, but far outside the value range 0..9. -/
def bigVals : Grid := fun i j => 10 + 9 * i.val + j.val

/-- A fully solved valid grid containing an intercalate: the four cells
(0,0), (0,1), (3,0), (3,1) hold 1,2 / 2,1 and can be swapped to 2,1 / 1,2
yielding a second valid solution. -/
def gTwoFull : Grid := gridOfLists
  [[1,2,3,4,5,6,7,8,9],
   [4,5,6,7,8,9,1,2,3],
   [7,8,9,1,2,3,4,5,6],
   [2,1,4,3,6,5,8,9,7],
   [3,6,5,8,9,7,2,1,4],
   [8,9,7,2,1,4,3,6,5],
   [5,3,1,6,4,2,9,7,8],
   [6,4,2,9,7,8,5,3,1],
   [9,7,8,5,3,1,6,4,2]]

/-- `gTwoFull` with the intercalate swapped: the other valid completion of
`gTwo`. -/
def gTwoAlt : Grid := gridOfLists
  [[2,1,3,4,5,6,7,8,9],
   [4,5,6,7,8,9,1,2,3],
   [7,8,9,1,2,3,4,5,6],
   [1,2,4,3,6,5,8,9,7],
   [3,6,5,8,9,7,2,1,4],
   [8,9,7,2,1,4,3,6,5],
   [5,3,1,6,4,2,9,7,8],
   [6,4,2,9,7,8,5,3,1],
   [9,7,8,5,3,1,6,4,2]]

/-- `gTwoFull` with the four intercalate cells cleared: a conflict-free
puzzle with exactly two completions. -/
def gTwo : Grid := gridOfLists
  [[0,0,3,4,5,6,7,8,9],
   [4,5,6,7,8,9,1,2,3],
   [7,8,9,1,2,3,4,5,6],
   [0,0,4,3,6,5,8,9,7],
   [3,6,5,8,9,7,2,1,4],
   [8,9,7,2,1,4,3,6,5],
   [5,3,1,6,4,2,9,7,8],
   [6,4,2,9,7,8,5,3,1],
   [9,7,8,5,3,1,6,4,2]]

/-- All cell values lie in 0..9. -/
def inRange (g : Grid) : Prop := ∀ i j : Fin 9, g i j ≤ 9

instance (g : Grid) : Decidable (inRange g) := by
  unfold inRange
  exact inferInstance

/-- No digit occurs twice among the non-zero cells of any row. -/
def rowsOk (s : Grid) : Prop :=
  ∀ i j j' : Fin 9, j ≠ j' → s i j ≠ 0 → s i j ≠ s i j'

instance (s : Grid) : Decidable (rowsOk s) := by
  unfold rowsOk
  exact inferInstance

/-- No digit occurs twice among the non-zero cells of any column. -/
def colsOk (s : Grid) : Prop :=
  ∀ i i' j : Fin 9, i ≠ i' → s i j ≠ 0 → s i j ≠ s i' j

instance (s : Grid) : Decidable (colsOk s) := by
  unfold colsOk
  exact inferInstance

/-- No digit occurs twice among the non-zero cells of any 3x3 box. -/
def boxesOk (s : Grid) : Prop :=
  ∀ i j i' j' : Fin 9, i.val / 3 = i'.val / 3 → j.val / 3 = j'.val / 3 →
    (i, j) ≠ (i', j') → s i j ≠ 0 → s i j ≠ s i' j'

instance (s : Grid) : Decidable (boxesOk s) := by
  unfold boxesOk
  exact inferInstance

/-- No digit occurs twice among the non-zero cells of a row, of a column,
or of a 3x3 box: the in-progress validity invariant of the data model. -/
def noConflicts (s : Grid) : Prop := rowsOk s ∧ colsOk s ∧ boxesOk s

instance (s : Grid) : Decidable (noConflicts s) := by
  unfold noConflicts
  exact inferInstance

/-- `s` is a completion of `g`: a fully solved, rule-valid grid that agrees
with `g` on every non-zero cell of `g`. -/
def completes (g s : Grid) : Prop :=
  (∀ i j : Fin 9, g i j ≠ 0 → s i j = g i j) ∧
  (∀ i j : Fin 9, 1 ≤ s i j ∧ s i j ≤ 9) ∧
  noConflicts s

instance (g s : Grid) : Decidable (completes g s) := by
  unfold completes
  exact inferInstance

/-- Grids with all cells below 10, coded with a bounded codomain so that
they form a finite type; used to count completions. -/
def SolGrid : Type := Fin 9 → Fin 9 → Fin 10

instance : Fintype SolGrid := by
  unfold SolGrid
  infer_instance

instance : DecidableEq SolGrid := by
  unfold SolGrid
  infer_instance

/-- Reading a coded grid back as a grid. -/
def decode (f : SolGrid) : Grid := fun i j => (f i j : Nat)

/-- Coding a grid with cells in 0..9. -/
def encode (g : Grid) : SolGrid :=
  fun i j => if h : g i j < 10 then ⟨g i j, h⟩ else 0

/-- The finite set of completions of `g` (in coded form). -/
def CompSet (g : Grid) : Finset SolGrid :=
  Finset.univ.filter fun f => completes g (decode f)

/-- The number of distinct fully solved valid grids agreeing with every
non-zero cell of `g`. -/
def Ncount (g : Grid) : Nat := (CompSet g).card

/-- The number of empty cells of a grid: the measure that strictly
decreases at each recursive call of the search. -/
def numZeros (g : Grid) : Nat :=
  (Finset.univ.filter fun p : Fin 9 × Fin 9 => g p.1 p.2 = 0).card

/-- The number of clue (non-zero) cells of a grid. -/
def nonZeros (g : Grid) : Nat :=
  (Finset.univ.filter fun p : Fin 9 × Fin 9 => g p.1 p.2 ≠ 0).card

/-- Row index of the `k`-th cell of box `b`, boxes being numbered
`3*(row/3) + col/3` as in the spec. -/
def boxRow (b k : Fin 9) : Fin 9 := ⟨3 * (b.val / 3) + k.val / 3, by omega⟩

/-- Column index of the `k`-th cell of box `b`. -/
def boxCol (b k : Fin 9) : Fin 9 := ⟨3 * (b.val % 3) + k.val % 3, by omega⟩

/-! ### Basic lemmas about cells, `find_empty` and the zero count -/

theorem setCell_same (g : Grid) (r c : Fin 9) (v : Nat) :
    setCell g r c v r c = v := by
  simp [setCell]

theorem setCell_of_ne (g : Grid) (r c : Fin 9) (v : Nat) {i j : Fin 9}
    (h : ¬(i = r ∧ j = c)) : setCell g r c v i j = g i j := by
  simp only [setCell, if_neg h]

theorem setCell_setCell_zero {g : Grid} {r c : Fin 9} (v : Nat)
    (h : g r c = 0) : setCell (setCell g r c v) r c 0 = g := by
  funext i j
  by_cases hij : i = r ∧ j = c
  · obtain ⟨rfl, rfl⟩ := hij
    rw [setCell_same, h]
  · rw [setCell_of_ne _ _ _ _ hij, setCell_of_ne _ _ _ _ hij]

theorem findSome?_eq_none_iff {α β : Type} (f : α → Option β) (l : List α) :
    l.findSome? f = none ↔ ∀ a ∈ l, f a = none := by
  induction l with
  | nil => simp
  | cons x xs ih =>
    cases hx : f x with
    | none => simp [List.findSome?_cons, hx, ih]
    | some b => simp [List.findSome?_cons, hx]

theorem exists_of_findSome?_eq_some {α β : Type} {f : α → Option β}
    {l : List α} {b : β} (h : l.findSome? f = some b) :
    ∃ a ∈ l, f a = some b := by
  induction l with
  | nil => simp [List.findSome?] at h
  | cons x xs ih =>
    cases hx : f x with
    | none =>
      simp only [List.findSome?_cons, hx] at h
      obtain ⟨a, ha, hfa⟩ := ih h
      exact ⟨a, List.mem_cons_of_mem _ ha, hfa⟩
    | some c =>
      simp [List.findSome?_cons, hx] at h
      exact ⟨x, List.mem_cons_self _ _, by rw [hx, h]⟩

theorem find_empty_none {g : Grid} (h : find_empty g = none) :
    ∀ i j : Fin 9, g i j ≠ 0 := by
  intro i j
  rw [find_empty, findSome?_eq_none_iff] at h
  have hi := h i (List.mem_finRange i)
  rw [findSome?_eq_none_iff] at hi
  have hj := hi j (List.mem_finRange j)
  by_cases hz : g i j = 0
  · rw [if_pos hz] at hj
    exact absurd hj (by simp)
  · exact hz

theorem find_empty_zero {g : Grid} {r c : Fin 9}
    (h : find_empty g = some (r, c)) : g r c = 0 := by
  rw [find_empty] at h
  obtain ⟨i, _, hi⟩ := exists_of_findSome?_eq_some h
  obtain ⟨j, _, hj⟩ := exists_of_findSome?_eq_some hi
  by_cases hz : g i j = 0
  · rw [if_pos hz] at hj
    obtain ⟨rfl, rfl⟩ : i = r ∧ j = c := by
      constructor <;> [exact congrArg Prod.fst (Option.some.inj hj);
        exact congrArg Prod.snd (Option.some.inj hj)]
    exact hz
  · rw [if_neg hz] at hj
    exact absurd hj (by simp)

theorem digits_eq : digits = [1, 2, 3, 4, 5, 6, 7, 8, 9] := rfl

theorem mem_digits_bounds {n : Nat} (h : n ∈ digits) : 1 ≤ n ∧ n ≤ 9 := by
  rw [digits_eq] at h
  simp at h
  omega

theorem numZeros_le (g : Grid) : numZeros g ≤ 81 := by
  calc numZeros g ≤ (Finset.univ : Finset (Fin 9 × Fin 9)).card :=
        Finset.card_filter_le _ _
    _ = 81 := by simp

theorem numZeros_setCell_lt {g : Grid} {r c : Fin 9} {n : Nat}
    (h0 : g r c = 0) (hn : n ≠ 0) : numZeros (setCell g r c n) < numZeros g := by
  apply Finset.card_lt_card
  constructor
  · intro p hp
    simp only [Finset.mem_filter, Finset.mem_univ, true_and] at hp ⊢
    by_cases hpc : p.1 = r ∧ p.2 = c
    · exfalso
      have : setCell g r c n p.1 p.2 = n := by
        rw [hpc.1, hpc.2, setCell_same]
      rw [this] at hp
      exact hn hp
    · rwa [setCell_of_ne _ _ _ _ hpc] at hp
  · intro hsub
    have hrc : (r, c) ∈ Finset.univ.filter fun p : Fin 9 × Fin 9 => g p.1 p.2 = 0 := by
      simp [h0]
    have := hsub hrc
    simp only [Finset.mem_filter, Finset.mem_univ, true_and, setCell_same] at this
    exact hn this

/-! ### Characterization of `is_valid_move` -/

theorem boxIdx_div (x : Fin 9) (a : Fin 3) : (boxIdx x a).val / 3 = x.val / 3 := by
  have ha := a.isLt
  have hx := x.isLt
  simp only [boxIdx]
  omega

theorem boxIdx_surj {x i : Fin 9} (h : i.val / 3 = x.val / 3) :
    ∃ a : Fin 3, boxIdx x a = i := by
  refine ⟨⟨i.val % 3, by omega⟩, ?_⟩
  apply Fin.ext
  have := i.isLt
  simp only [boxIdx]
  omega

theorem valid_move_true_char (g : Grid) (row col : Fin 9) (num : Nat) :
    is_valid_move g row col num = true ↔
      (∀ j : Fin 9, j ≠ col → g row j ≠ num) ∧
      (∀ i : Fin 9, i ≠ row → g i col ≠ num) ∧
      (∀ i j : Fin 9, i.val / 3 = row.val / 3 → j.val / 3 = col.val / 3 →
        ¬(i = row ∧ j = col) → g i j ≠ num) := by
  rw [is_valid_move]
  simp only [Bool.and_eq_true, List.all_eq_true, List.mem_finRange, true_implies,
    Bool.or_eq_true, beq_iff_eq, bne_iff_ne, ne_eq]
  constructor
  · rintro ⟨⟨h1, h2⟩, h3⟩
    refine ⟨fun j hj => (h1 j).resolve_left hj,
      fun i hi => (h2 i).resolve_left hi, ?_⟩
    intro i j hdi hdj hne
    obtain ⟨a, ha⟩ := boxIdx_surj hdi
    obtain ⟨b, hb⟩ := boxIdx_surj hdj
    have h := h3 a b
    rw [ha, hb] at h
    exact h.resolve_left hne
  · rintro ⟨h1, h2, h3⟩
    refine ⟨⟨fun j => ?_, fun i => ?_⟩, fun a b => ?_⟩
    · by_cases hj : j = col
      · exact Or.inl hj
      · exact Or.inr (h1 j hj)
    · by_cases hi : i = row
      · exact Or.inl hi
      · exact Or.inr (h2 i hi)
    · by_cases hab : boxIdx row a = row ∧ boxIdx col b = col
      · exact Or.inl hab
      · exact Or.inr (h3 _ _ (boxIdx_div row a) (boxIdx_div col b) hab)

theorem valid_move_false_char (g : Grid) (row col : Fin 9) (num : Nat) :
    is_valid_move g row col num = false ↔
      (∃ j : Fin 9, j ≠ col ∧ g row j = num) ∨
      (∃ i : Fin 9, i ≠ row ∧ g i col = num) ∨
      (∃ i j : Fin 9, i.val / 3 = row.val / 3 ∧ j.val / 3 = col.val / 3 ∧
        ¬(i = row ∧ j = col) ∧ g i j = num) := by
  rw [Bool.eq_false_iff, ne_eq, valid_move_true_char, not_and_or, not_and_or]
  push_neg
  rfl

/-- Claim C5: for every grid, coordinates and candidate value in 1..9,
`is_valid_move` returns false exactly when the value already occurs in the
same row at another column, in the same column at another row, or in the
same 3x3 box at another cell; the pure embedding has no side effect on the
grid. -/
theorem is_valid_move_false_iff_conflict (g : Grid) (row col : Fin 9)
    (v : Nat) (hv1 : 1 ≤ v) (hv9 : v ≤ 9) :
    is_valid_move g row col v = false ↔
      (∃ j : Fin 9, j ≠ col ∧ g row j = v) ∨
      (∃ i : Fin 9, i ≠ row ∧ g i col = v) ∨
      (∃ i j : Fin 9, i.val / 3 = row.val / 3 ∧ j.val / 3 = col.val / 3 ∧
        ¬(i = row ∧ j = col) ∧ g i j = v) :=
  valid_move_false_char g row col v

theorem is_valid_move_false_iff_conflict_witness :
    (1 : Nat) ≤ 5 ∧ (5 : Nat) ≤ 9 ∧
      (is_valid_move gFull 0 0 5 = false ↔
        (∃ j : Fin 9, j ≠ 0 ∧ gFull 0 j = 5) ∨
        (∃ i : Fin 9, i ≠ 0 ∧ gFull i 0 = 5) ∨
        (∃ i j : Fin 9, i.val / 3 = (0 : Fin 9).val / 3 ∧
          j.val / 3 = (0 : Fin 9).val / 3 ∧
          ¬(i = 0 ∧ j = 0) ∧ gFull i j = 5)) :=
  ⟨by decide, by decide,
    is_valid_move_false_iff_conflict gFull 0 0 5 (by decide) (by decide)⟩

/-! ### The failed search restores the board -/

theorem solveLoop_false_restore {S : Grid → Bool × Grid}
    (hS : ∀ g0 : Grid, (S g0).1 = false → (S g0).2 = g0) {r c : Fin 9} :
    ∀ (ns : List Nat) (g : Grid), g r c = 0 →
      (solveLoop S r c ns g).1 = false → (solveLoop S r c ns g).2 = g := by
  intro ns
  induction ns with
  | nil => intro g _ _; rfl
  | cons n ns ih =>
    intro g h0 hf
    simp only [solveLoop] at hf ⊢
    by_cases hv : is_valid_move g r c n = true
    · rw [if_pos hv] at hf ⊢
      by_cases hp : (S (setCell g r c n)).1 = true
      · rw [if_pos hp] at hf
        rw [hf] at hp
        exact absurd hp (by simp)
      · rw [Bool.not_eq_true] at hp
        rw [if_neg (by simp [hp])] at hf ⊢
        have hz : setCell (S (setCell g r c n)).2 r c 0 r c = 0 := setCell_same _ _ _ _
        rw [ih _ hz hf, hS _ hp, setCell_setCell_zero n h0]
    · rw [if_neg hv] at hf ⊢
      exact ih g h0 hf

theorem solveAux_false_restore :
    ∀ (fuel : Nat) (g : Grid),
      (solveAux fuel g).1 = false → (solveAux fuel g).2 = g := by
  intro fuel
  induction fuel with
  | zero => intro g _; rfl
  | succ fuel ih =>
    intro g hf
    simp only [solveAux] at hf ⊢
    cases he : find_empty g with
    | none => rw [he] at hf
    | some rc =>
      obtain ⟨r, c⟩ := rc
      rw [he] at hf
      have hf2 : (solveLoop (fun g2 => solveAux fuel g2) r c digits g).1 = false := hf
      show (solveLoop (fun g2 => solveAux fuel g2) r c digits g).2 = g
      exact solveLoop_false_restore ih digits g (find_empty_zero he) hf2

/-- Claim C4: whenever `solve` returns false the board it hands back is
cell-for-cell the board it was given: every cell filled during the failed
search has been reset to 0. -/
theorem solve_false_frame (g : Grid) (h : (solve g).1 = false) :
    (solve g).2 = g :=
  solveAux_false_restore 82 g h

theorem solve_false_frame_witness :
    (solve gBad).1 = false ∧ (solve gBad).2 = gBad :=
  ⟨by decide, solve_false_frame gBad (by decide)⟩

/-! ### `is_valid_puzzle` checks exactly the no-conflict invariant -/

theorem is_valid_puzzle_true_iff (g : Grid) :
    is_valid_puzzle g = true ↔ noConflicts g := by
  rw [is_valid_puzzle]
  simp only [List.all_eq_true, List.mem_finRange, true_implies]
  constructor
  · intro h
    refine ⟨?_, ?_, ?_⟩
    · intro i j j' hne hnz heq
      have hij := h i j
      rw [if_pos hnz] at hij
      rw [valid_move_true_char] at hij
      have hrow := hij.1 j' (Ne.symm hne)
      rw [setCell_of_ne _ _ _ _ (fun hc => hne hc.2.symm)] at hrow
      exact hrow (heq.symm)
    · intro i i' j hne hnz heq
      have hij := h i j
      rw [if_pos hnz] at hij
      rw [valid_move_true_char] at hij
      have hcol := hij.2.1 i' (Ne.symm hne)
      rw [setCell_of_ne _ _ _ _ (fun hc => hne hc.1.symm)] at hcol
      exact hcol (heq.symm)
    · intro i j i' j' hdi hdj hne hnz heq
      have hij := h i j
      rw [if_pos hnz] at hij
      rw [valid_move_true_char] at hij
      have hpair : ¬(i' = i ∧ j' = j) := by
        intro hc
        exact hne (by rw [hc.1, hc.2])
      have hbox := hij.2.2 i' j' hdi.symm hdj.symm hpair
      rw [setCell_of_ne _ _ _ _ hpair] at hbox
      exact hbox (heq.symm)
  · intro hnc i j
    by_cases hnz : g i j ≠ 0
    · rw [if_pos hnz, valid_move_true_char]
      refine ⟨?_, ?_, ?_⟩
      · intro j' hne
        rw [setCell_of_ne _ _ _ _ (fun hc => hne hc.2)]
        exact fun hc => hnc.1 i j j' (fun hc2 => hne hc2.symm) hnz hc.symm
      · intro i' hne
        rw [setCell_of_ne _ _ _ _ (fun hc => hne hc.1)]
        exact fun hc => hnc.2.1 i i' j (fun hc2 => hne hc2.symm) hnz hc.symm
      · intro i' j' hdi hdj hne
        rw [setCell_of_ne _ _ _ _ hne]
        refine fun hc => hnc.2.2 i j i' j' hdi.symm hdj.symm ?_ hnz hc.symm
        intro hpair
        rw [Prod.mk.injEq] at hpair
        exact hne ⟨hpair.1.symm, hpair.2.symm⟩
    · rw [if_neg hnz]

/-! ### Placing a valid digit in an empty cell preserves the invariants -/

theorem inRange_setCell {g : Grid} {r c : Fin 9} {n : Nat}
    (hr : inRange g) (hn : n ≤ 9) : inRange (setCell g r c n) := by
  intro i j
  by_cases hij : i = r ∧ j = c
  · obtain ⟨rfl, rfl⟩ := hij
    rw [setCell_same]
    exact hn
  · rw [setCell_of_ne _ _ _ _ hij]
    exact hr i j

theorem noConflicts_setCell {g : Grid} {r c : Fin 9} {n : Nat}
    (hnc : noConflicts g) (h0 : g r c = 0)
    (hv : is_valid_move g r c n = true) : noConflicts (setCell g r c n) := by
  rw [valid_move_true_char] at hv
  have hval : ∀ i j : Fin 9, ¬(i = r ∧ j = c) → setCell g r c n i j = g i j :=
    fun i j h => setCell_of_ne _ _ _ _ h
  refine ⟨?_, ?_, ?_⟩
  · intro i j j' hne hnz heq
    by_cases h1 : i = r ∧ j = c
    · obtain ⟨rfl, rfl⟩ := h1
      rw [setCell_same] at heq
      have h2 : ¬(i = i ∧ j' = j) := fun hc => hne hc.2.symm
      rw [hval _ _ h2] at heq
      exact hv.1 j' (Ne.symm hne) heq.symm
    · rw [hval _ _ h1] at heq hnz
      by_cases h2 : i = r ∧ j' = c
      · obtain ⟨rfl, rfl⟩ := h2
        rw [setCell_same] at heq
        exact hv.1 j hne heq
      · rw [hval _ _ h2] at heq
        exact hnc.1 i j j' hne hnz heq
  · intro i i' j hne hnz heq
    by_cases h1 : i = r ∧ j = c
    · obtain ⟨rfl, rfl⟩ := h1
      rw [setCell_same] at heq
      have h2 : ¬(i' = i ∧ j = j) := fun hc => hne hc.1.symm
      rw [hval _ _ h2] at heq
      exact hv.2.1 i' (Ne.symm hne) heq.symm
    · rw [hval _ _ h1] at heq hnz
      by_cases h2 : i' = r ∧ j = c
      · obtain ⟨rfl, rfl⟩ := h2
        rw [setCell_same] at heq
        exact hv.2.1 i hne heq
      · rw [hval _ _ h2] at heq
        exact hnc.2.1 i i' j hne hnz heq
  · intro i j i' j' hdi hdj hne hnz heq
    by_cases h1 : i = r ∧ j = c
    · obtain ⟨rfl, rfl⟩ := h1
      rw [setCell_same] at heq
      have h2 : ¬(i' = i ∧ j' = j) := by
        intro hc
        exact hne (by rw [hc.1, hc.2])
      rw [hval _ _ h2] at heq
      exact hv.2.2 i' j' hdi.symm hdj.symm h2 heq.symm
    · rw [hval _ _ h1] at heq hnz
      by_cases h2 : i' = r ∧ j' = c
      · obtain ⟨rfl, rfl⟩ := h2
        rw [setCell_same] at heq
        exact hv.2.2 i j hdi hdj h1 heq
      · rw [hval _ _ h2] at heq
        exact hnc.2.2 i j i' j' hdi hdj hne hnz heq

/-- Zeroing any cell preserves the no-conflict invariant. -/
theorem noConflicts_clearCell {g : Grid} (hnc : noConflicts g) (r c : Fin 9) :
    noConflicts (setCell g r c 0) := by
  have hval : ∀ i j : Fin 9, setCell g r c 0 i j ≠ 0 → setCell g r c 0 i j = g i j := by
    intro i j hnz
    by_cases hij : i = r ∧ j = c
    · obtain ⟨rfl, rfl⟩ := hij
      rw [setCell_same] at hnz
      exact absurd rfl hnz
    · exact setCell_of_ne _ _ _ _ hij
  have hval2 : ∀ i j : Fin 9, setCell g r c 0 i j = 0 ∨ setCell g r c 0 i j = g i j := by
    intro i j
    by_cases hij : i = r ∧ j = c
    · obtain ⟨rfl, rfl⟩ := hij
      rw [setCell_same]
      exact Or.inl rfl
    · exact Or.inr (setCell_of_ne _ _ _ _ hij)
  refine ⟨?_, ?_, ?_⟩
  · intro i j j' hne hnz heq
    rw [hval _ _ hnz] at heq hnz
    rcases hval2 i j' with h | h
    · rw [h] at heq
      rw [heq] at hnz
      exact hnz rfl
    · rw [h] at heq
      exact hnc.1 i j j' hne hnz heq
  · intro i i' j hne hnz heq
    rw [hval _ _ hnz] at heq hnz
    rcases hval2 i' j with h | h
    · rw [h] at heq
      rw [heq] at hnz
      exact hnz rfl
    · rw [h] at heq
      exact hnc.2.1 i i' j hne hnz heq
  · intro i j i' j' hdi hdj hne hnz heq
    rw [hval _ _ hnz] at heq hnz
    rcases hval2 i' j' with h | h
    · rw [h] at heq
      rw [heq] at hnz
      exact hnz rfl
    · rw [h] at heq
      exact hnc.2.2 i j i' j' hdi hdj hne hnz heq

/-- Zeroing any cell keeps all values in 0..9. -/
theorem inRange_clearCell {g : Grid} (hr : inRange g) (r c : Fin 9) :
    inRange (setCell g r c 0) :=
  inRange_setCell hr (by omega)

/-! ### A successful `solve` yields a full grid satisfying the invariants -/

theorem solveLoop_true_invariant {S : Grid → Bool × Grid}
    (hS : ∀ g0 : Grid, inRange g0 → noConflicts g0 → (S g0).1 = true →
      inRange (S g0).2 ∧ noConflicts (S g0).2 ∧ ∀ i j : Fin 9, (S g0).2 i j ≠ 0)
    (hSr : ∀ g0 : Grid, (S g0).1 = false → (S g0).2 = g0) {r c : Fin 9} :
    ∀ ns : List Nat, (∀ n ∈ ns, n ≤ 9) → ∀ g : Grid, inRange g →
      noConflicts g → g r c = 0 → (solveLoop S r c ns g).1 = true →
      inRange (solveLoop S r c ns g).2 ∧ noConflicts (solveLoop S r c ns g).2 ∧
        ∀ i j : Fin 9, (solveLoop S r c ns g).2 i j ≠ 0 := by
  intro ns
  induction ns with
  | nil =>
    intro _ g _ _ _ ht
    exact Bool.noConfusion ht
  | cons n ns ih =>
    intro hbound g hr hnc h0 ht
    have hbn : n ≤ 9 := hbound n (List.mem_cons_self _ _)
    have hbns : ∀ m ∈ ns, m ≤ 9 := fun m hm => hbound m (List.mem_cons_of_mem _ hm)
    simp only [solveLoop] at ht ⊢
    by_cases hvm : is_valid_move g r c n = true
    · rw [if_pos hvm] at ht ⊢
      have hr2 : inRange (setCell g r c n) := inRange_setCell hr hbn
      have hnc2 : noConflicts (setCell g r c n) := noConflicts_setCell hnc h0 hvm
      by_cases hp : (S (setCell g r c n)).1 = true
      · rw [if_pos hp] at ht ⊢
        exact hS _ hr2 hnc2 hp
      · rw [Bool.not_eq_true] at hp
        rw [if_neg (by simp [hp])] at ht ⊢
        rw [hSr _ hp, setCell_setCell_zero n h0] at ht ⊢
        exact ih hbns g hr hnc h0 ht
    · rw [if_neg hvm] at ht ⊢
      exact ih hbns g hr hnc h0 ht

theorem solveAux_true_invariant :
    ∀ (fuel : Nat) (g : Grid), inRange g → noConflicts g →
      (solveAux fuel g).1 = true →
      inRange (solveAux fuel g).2 ∧ noConflicts (solveAux fuel g).2 ∧
        ∀ i j : Fin 9, (solveAux fuel g).2 i j ≠ 0 := by
  intro fuel
  induction fuel with
  | zero =>
    intro g _ _ ht
    exact Bool.noConfusion ht
  | succ fuel ih =>
    intro g hr hnc ht
    simp only [solveAux] at ht ⊢
    cases he : find_empty g with
    | none =>
      show inRange g ∧ noConflicts g ∧ ∀ i j : Fin 9, g i j ≠ 0
      exact ⟨hr, hnc, find_empty_none he⟩
    | some rc =>
      obtain ⟨r, c⟩ := rc
      rw [he] at ht
      have ht2 : (solveLoop (fun g2 => solveAux fuel g2) r c digits g).1 = true := ht
      show inRange (solveLoop (fun g2 => solveAux fuel g2) r c digits g).2 ∧
        noConflicts (solveLoop (fun g2 => solveAux fuel g2) r c digits g).2 ∧
        ∀ i j : Fin 9, (solveLoop (fun g2 => solveAux fuel g2) r c digits g).2 i j ≠ 0
      exact solveLoop_true_invariant ih (solveAux_false_restore fuel) digits
        (fun n hn => (mem_digits_bounds hn).2) g hr hnc (find_empty_zero he) ht2

/-! ### A full conflict-free grid in range has permutation rows, columns
and boxes -/

theorem boxRow_val (b k : Fin 9) :
    (boxRow b k).val = 3 * (b.val / 3) + k.val / 3 := rfl

theorem boxCol_val (b k : Fin 9) :
    (boxCol b k).val = 3 * (b.val % 3) + k.val % 3 := rfl

theorem boxRow_div (b k : Fin 9) : (boxRow b k).val / 3 = b.val / 3 := by
  have := k.isLt
  rw [boxRow_val]
  omega

theorem boxCol_div (b k : Fin 9) : (boxCol b k).val / 3 = b.val % 3 := by
  have := k.isLt
  rw [boxCol_val]
  omega

theorem boxCell_inj {b k k' : Fin 9}
    (h1 : boxRow b k = boxRow b k') (h2 : boxCol b k = boxCol b k') :
    k = k' := by
  have e1 : (boxRow b k).val = (boxRow b k').val := congrArg Fin.val h1
  have e2 : (boxCol b k).val = (boxCol b k').val := congrArg Fin.val h2
  rw [boxRow_val, boxRow_val] at e1
  rw [boxCol_val, boxCol_val] at e2
  apply Fin.ext
  omega

theorem exists_unique_of_inj_range {f : Fin 9 → Nat}
    (hlo : ∀ j, 1 ≤ f j) (hhi : ∀ j, f j ≤ 9)
    (hinj : ∀ j j', f j = f j' → j = j') {v : Nat} (hv1 : 1 ≤ v)
    (hv9 : v ≤ 9) : ∃! j : Fin 9, f j = v := by
  have hsurj : Function.Surjective fun j : Fin 9 =>
      (⟨f j - 1, by have := hlo j; have := hhi j; omega⟩ : Fin 9) := by
    rw [← Finite.injective_iff_surjective]
    intro j j' hjj
    apply hinj
    have hval : f j - 1 = f j' - 1 := congrArg Fin.val hjj
    have := hlo j
    have := hlo j'
    omega
  obtain ⟨j, hj⟩ := hsurj ⟨v - 1, by omega⟩
  have hval : f j - 1 = v - 1 := congrArg Fin.val hj
  have hfj : f j = v := by
    have := hlo j
    omega
  exact ⟨j, hfj, fun j' hj' => hinj j' j (by rw [hj', hfj])⟩

theorem rows_perm_of_solved {g : Grid} (hr : inRange g)
    (hnc : noConflicts g) (hfull : ∀ i j : Fin 9, g i j ≠ 0) (i : Fin 9)
    {v : Nat} (hv1 : 1 ≤ v) (hv9 : v ≤ 9) : ∃! j : Fin 9, g i j = v := by
  refine exists_unique_of_inj_range ?_ (fun j => hr i j) ?_ hv1 hv9
  · intro j
    have := hfull i j
    omega
  · intro j j' hjj
    by_contra hne
    exact hnc.1 i j j' hne (hfull i j) hjj

theorem cols_perm_of_solved {g : Grid} (hr : inRange g)
    (hnc : noConflicts g) (hfull : ∀ i j : Fin 9, g i j ≠ 0) (j : Fin 9)
    {v : Nat} (hv1 : 1 ≤ v) (hv9 : v ≤ 9) : ∃! i : Fin 9, g i j = v := by
  refine exists_unique_of_inj_range ?_ (fun i => hr i j) ?_ hv1 hv9
  · intro i
    have := hfull i j
    omega
  · intro i i' hii
    by_contra hne
    exact hnc.2.1 i i' j hne (hfull i j) hii

theorem boxes_perm_of_solved {g : Grid} (hr : inRange g)
    (hnc : noConflicts g) (hfull : ∀ i j : Fin 9, g i j ≠ 0) (b : Fin 9)
    {v : Nat} (hv1 : 1 ≤ v) (hv9 : v ≤ 9) :
    ∃! k : Fin 9, g (boxRow b k) (boxCol b k) = v := by
  refine exists_unique_of_inj_range ?_ (fun k => hr _ _) ?_ hv1 hv9
  · intro k
    have := hfull (boxRow b k) (boxCol b k)
    omega
  · intro k k' hkk
    by_contra hne
    have hpair : (boxRow b k, boxCol b k) ≠ (boxRow b k', boxCol b k') := by
      intro hc
      rw [Prod.mk.injEq] at hc
      exact hne (boxCell_inj hc.1 hc.2)
    refine hnc.2.2 (boxRow b k) (boxCol b k) (boxRow b k') (boxCol b k')
      ?_ ?_ hpair (hfull _ _) hkk
    · rw [boxRow_div, boxRow_div]
    · rw [boxCol_div, boxCol_div]

/-! ### Claim C3 -/

/-- Counterexample to claim C3 as stated: on the all-ones grid `solve`
returns true at once (there is no empty cell), yet the resulting grid
violates `is_valid_puzzle`; and on the conflict-free but out-of-range grid
`bigVals`, `solve` also returns true and `is_valid_puzzle` holds, yet row
0 does not contain the value 1, so it is not a permutation of 1..9.  The
first instance forces the conflict-freeness precondition of the amended
claim, the second the value-range precondition. -/
theorem solve_true_invalid_on_allOnes :
    ((solve allOnes).1 = true ∧ is_valid_puzzle (solve allOnes).2 = false) ∧
    ((solve bigVals).1 = true ∧ is_valid_puzzle (solve bigVals).2 = true ∧
      ¬∃ j : Fin 9, (solve bigVals).2 0 j = 1) := by
  refine ⟨⟨?_, ?_⟩, ?_, ?_, ?_⟩
  · decide
  · decide
  · decide
  · decide
  · decide

/-- Claim C3 (amended): for every grid with cell values in 0..9 on which
`is_valid_puzzle` holds, if `solve` returns true then the resulting grid
has all 81 cells non-zero, satisfies `is_valid_puzzle`, and every row,
every column and every 3x3 box is a permutation of 1..9 (each value of
1..9 is hit by exactly one cell of the unit). -/
theorem solve_true_solved (g : Grid) (hr : inRange g)
    (hvp : is_valid_puzzle g = true) (hs : (solve g).1 = true) :
    (∀ i j : Fin 9, (solve g).2 i j ≠ 0) ∧
    is_valid_puzzle (solve g).2 = true ∧
    (∀ (i : Fin 9) (v : Nat), 1 ≤ v → v ≤ 9 →
      ∃! j : Fin 9, (solve g).2 i j = v) ∧
    (∀ (j : Fin 9) (v : Nat), 1 ≤ v → v ≤ 9 →
      ∃! i : Fin 9, (solve g).2 i j = v) ∧
    (∀ (b : Fin 9) (v : Nat), 1 ≤ v → v ≤ 9 →
      ∃! k : Fin 9, (solve g).2 (boxRow b k) (boxCol b k) = v) := by
  obtain ⟨hr2, hnc2, hfull2⟩ :=
    solveAux_true_invariant 82 g hr ((is_valid_puzzle_true_iff g).mp hvp) hs
  exact ⟨hfull2, (is_valid_puzzle_true_iff _).mpr hnc2,
    fun i v hv1 hv9 => rows_perm_of_solved hr2 hnc2 hfull2 i hv1 hv9,
    fun j v hv1 hv9 => cols_perm_of_solved hr2 hnc2 hfull2 j hv1 hv9,
    fun b v hv1 hv9 => boxes_perm_of_solved hr2 hnc2 hfull2 b hv1 hv9⟩

theorem solve_true_solved_witness :
    inRange gFull ∧ is_valid_puzzle gFull = true ∧ (solve gFull).1 = true ∧
      ((∀ i j : Fin 9, (solve gFull).2 i j ≠ 0) ∧
      is_valid_puzzle (solve gFull).2 = true ∧
      (∀ (i : Fin 9) (v : Nat), 1 ≤ v → v ≤ 9 →
        ∃! j : Fin 9, (solve gFull).2 i j = v) ∧
      (∀ (j : Fin 9) (v : Nat), 1 ≤ v → v ≤ 9 →
        ∃! i : Fin 9, (solve gFull).2 i j = v) ∧
      (∀ (b : Fin 9) (v : Nat), 1 ≤ v → v ≤ 9 →
        ∃! k : Fin 9, (solve gFull).2 (boxRow b k) (boxCol b k) = v)) :=
  ⟨by decide, by decide, by decide,
    solve_true_solved gFull (by decide) (by decide) (by decide)⟩

/-! ### Counting the completions of a grid -/

theorem encode_val {g : Grid} (hr : inRange g) (i j : Fin 9) :
    (encode g i j : Nat) = g i j := by
  have h : g i j < 10 := by
    have := hr i j
    omega
  simp [encode, h]

theorem decode_encode {g : Grid} (hr : inRange g) : decode (encode g) = g := by
  funext i j
  exact encode_val hr i j

theorem completes_self {g : Grid} (hr : inRange g) (hnc : noConflicts g)
    (hfull : ∀ i j : Fin 9, g i j ≠ 0) : completes g g :=
  ⟨fun _ _ _ => rfl,
    fun i j => ⟨by have := hfull i j; omega, hr i j⟩, hnc⟩

theorem completes_full_eq {g s : Grid} (hfull : ∀ i j : Fin 9, g i j ≠ 0)
    (hc : completes g s) : s = g :=
  funext fun i => funext fun j => hc.1 i j (hfull i j)

theorem Ncount_full {g : Grid} (he : find_empty g = none) (hr : inRange g)
    (hnc : noConflicts g) : Ncount g = 1 := by
  have hfull := find_empty_none he
  rw [Ncount, Finset.card_eq_one]
  refine ⟨encode g, ?_⟩
  ext f
  simp only [CompSet, Finset.mem_filter, Finset.mem_univ, true_and,
    Finset.mem_singleton]
  constructor
  · intro hcf
    have hs : decode f = g := completes_full_eq hfull hcf
    funext i j
    apply Fin.ext
    show (f i j : Nat) = (encode g i j : Nat)
    rw [encode_val hr]
    exact congrFun (congrFun hs i) j
  · rintro rfl
    rw [decode_encode hr]
    exact completes_self hr hnc hfull

theorem Ncount_invalid {g : Grid} {r c : Fin 9} {n : Nat} (h0 : g r c = 0)
    (hn1 : 1 ≤ n) (hinv : is_valid_move g r c n = false) :
    Ncount (setCell g r c n) = 0 := by
  rw [Ncount, Finset.card_eq_zero, CompSet, Finset.filter_eq_empty_iff]
  intro f _
  intro hcf
  obtain ⟨hagree, hrange, hnc⟩ := hcf
  have hsrc : decode f r c = n := by
    have := hagree r c (by rw [setCell_same]; omega)
    rwa [setCell_same] at this
  have hother : ∀ i j : Fin 9, ¬(i = r ∧ j = c) → g i j = n →
      decode f i j = n := by
    intro i j hij hgij
    have := hagree i j (by rw [setCell_of_ne _ _ _ _ hij, hgij]; omega)
    rwa [setCell_of_ne _ _ _ _ hij, hgij] at this
  rw [valid_move_false_char] at hinv
  rcases hinv with ⟨j, hj, hgj⟩ | ⟨i, hi, hgi⟩ | ⟨i, j, hdi, hdj, hne, hgij⟩
  · have hsj : decode f r j = n := hother r j (fun hc => hj hc.2) hgj
    exact hnc.1 r c j (Ne.symm hj) (by rw [hsrc]; omega)
      (by rw [hsrc, hsj])
  · have hsi : decode f i c = n := hother i c (fun hc => hi hc.1) hgi
    exact hnc.2.1 r i c (Ne.symm hi) (by rw [hsrc]; omega)
      (by rw [hsrc, hsi])
  · have hsij : decode f i j = n := hother i j hne hgij
    have hpair : (r, c) ≠ (i, j) := by
      intro hp
      rw [Prod.mk.injEq] at hp
      exact hne ⟨hp.1.symm, hp.2.symm⟩
    exact hnc.2.2 r c i j hdi.symm hdj.symm hpair (by rw [hsrc]; omega)
      (by rw [hsrc, hsij])

theorem digits_nodup : digits.Nodup := by
  rw [digits_eq]
  decide

theorem mem_digits_iff {n : Nat} : n ∈ digits ↔ 1 ≤ n ∧ n ≤ 9 := by
  rw [digits_eq]
  simp
  omega

theorem CompSet_branch {g : Grid} {r c : Fin 9} (h0 : g r c = 0) :
    CompSet g = digits.toFinset.biUnion fun n => CompSet (setCell g r c n) := by
  ext f
  simp only [CompSet, Finset.mem_filter, Finset.mem_univ, true_and,
    Finset.mem_biUnion, List.mem_toFinset]
  constructor
  · intro hcf
    refine ⟨decode f r c, ?_, ?_, hcf.2.1, hcf.2.2⟩
    · rw [mem_digits_iff]
      exact hcf.2.1 r c
    · intro i j hnz
      by_cases hij : i = r ∧ j = c
      · obtain ⟨rfl, rfl⟩ := hij
        rw [setCell_same]
      · rw [setCell_of_ne _ _ _ _ hij] at hnz ⊢
        exact hcf.1 i j hnz
  · rintro ⟨n, _, hagree, hrange, hnc⟩
    refine ⟨?_, hrange, hnc⟩
    intro i j hnz
    have hij : ¬(i = r ∧ j = c) := by
      intro hc
      obtain ⟨rfl, rfl⟩ := hc
      exact hnz h0
    have := hagree i j (by rw [setCell_of_ne _ _ _ _ hij]; exact hnz)
    rwa [setCell_of_ne _ _ _ _ hij] at this

theorem Ncount_branch_sum {g : Grid} {r c : Fin 9} (h0 : g r c = 0) :
    Ncount g = (digits.map fun n => Ncount (setCell g r c n)).sum := by
  have hdisj : ∀ n ∈ digits.toFinset, ∀ m ∈ digits.toFinset, n ≠ m →
      Disjoint (CompSet (setCell g r c n)) (CompSet (setCell g r c m)) := by
    intro n hn m hm hnm
    rw [Finset.disjoint_left]
    intro f hfn hfm
    simp only [CompSet, Finset.mem_filter, Finset.mem_univ, true_and] at hfn hfm
    have hn1 : 1 ≤ n := (mem_digits_bounds (List.mem_toFinset.mp hn)).1
    have hm1 : 1 ≤ m := (mem_digits_bounds (List.mem_toFinset.mp hm)).1
    have h1 : decode f r c = n := by
      have := hfn.1 r c (by rw [setCell_same]; omega)
      rwa [setCell_same] at this
    have h2 : decode f r c = m := by
      have := hfm.1 r c (by rw [setCell_same]; omega)
      rwa [setCell_same] at this
    exact hnm (h1.symm.trans h2)
  rw [Ncount, CompSet_branch h0, Finset.card_biUnion hdisj,
    ← List.sum_toFinset _ digits_nodup]
  rfl

/-! ### The enumeration search restores its working board -/

theorem findAllLoop_restore {S : Grid → List Grid → Grid × List Grid}
    (hS : ∀ (g0 : Grid) (sols0 : List Grid), (S g0 sols0).1 = g0)
    {r c : Fin 9} :
    ∀ (ns : List Nat) (g : Grid) (sols : List Grid), g r c = 0 →
      (findAllLoop S r c ns g sols).1 = g := by
  intro ns
  induction ns with
  | nil => intro g sols _; rfl
  | cons n ns ih =>
    intro g sols h0
    simp only [findAllLoop]
    by_cases hvm : is_valid_move g r c n = true
    · rw [if_pos hvm]
      have hz : setCell (S (setCell g r c n) sols).1 r c 0 r c = 0 :=
        setCell_same _ _ _ _
      rw [ih _ _ hz, hS, setCell_setCell_zero n h0]
    · rw [if_neg hvm]
      exact ih g sols h0

theorem findAllAux_restore :
    ∀ (fuel maxSols : Nat) (g : Grid) (sols : List Grid),
      (findAllAux fuel maxSols g sols).1 = g := by
  intro fuel
  induction fuel with
  | zero => intro _ g sols; rfl
  | succ fuel ih =>
    intro maxSols g sols
    simp only [findAllAux]
    by_cases hstop : sols.length ≥ maxSols
    · rw [if_pos hstop]
    · rw [if_neg hstop]
      cases he : find_empty g with
      | none => rfl
      | some rc =>
        obtain ⟨r, c⟩ := rc
        show (findAllLoop (fun g2 s2 => findAllAux fuel maxSols g2 s2) r c
          digits g sols).1 = g
        exact findAllLoop_restore (ih maxSols) digits g sols (find_empty_zero he)

/-! ### The enumeration collects `min limit N` solutions -/

theorem findAllLoop_count {fuel limit : Nat}
    (IH : ∀ (g1 : Grid) (sols1 : List Grid), numZeros g1 < fuel →
      inRange g1 → noConflicts g1 → sols1.length ≤ limit →
      (findAllAux fuel limit g1 sols1).2.length =
        min limit (sols1.length + Ncount g1)) {r c : Fin 9} :
    ∀ ns : List Nat, (∀ n ∈ ns, 1 ≤ n ∧ n ≤ 9) →
      ∀ (g : Grid) (sols : List Grid), numZeros g ≤ fuel → inRange g →
        noConflicts g → g r c = 0 → sols.length ≤ limit →
        (findAllLoop (fun g2 s2 => findAllAux fuel limit g2 s2) r c ns
            g sols).2.length =
          min limit
            (sols.length + (ns.map fun n => Ncount (setCell g r c n)).sum) := by
  intro ns
  induction ns with
  | nil =>
    intro _ g sols _ _ _ _ hlen
    simp only [findAllLoop, List.map_nil, List.sum_nil, Nat.add_zero]
    omega
  | cons n ns ih =>
    intro hb g sols hfuel hr hnc h0 hlen
    have hbn := hb n (List.mem_cons_self _ _)
    have hbns : ∀ m ∈ ns, 1 ≤ m ∧ m ≤ 9 :=
      fun m hm => hb m (List.mem_cons_of_mem _ hm)
    simp only [findAllLoop, List.map_cons, List.sum_cons]
    by_cases hvm : is_valid_move g r c n = true
    · rw [if_pos hvm]
      have hz : numZeros (setCell g r c n) < fuel :=
        Nat.lt_of_lt_of_le (numZeros_setCell_lt h0 (by omega)) hfuel
      have hlen2 := IH (setCell g r c n) sols hz (inRange_setCell hr hbn.2)
        (noConflicts_setCell hnc h0 hvm) hlen
      have hrw : (findAllAux fuel limit (setCell g r c n) sols).1 =
          setCell g r c n := findAllAux_restore fuel limit _ _
      rw [hrw, setCell_setCell_zero n h0]
      rw [ih hbns g _ hfuel hr hnc h0 (by omega)]
      omega
    · rw [if_neg hvm]
      rw [ih hbns g sols hfuel hr hnc h0 hlen]
      rw [Ncount_invalid h0 hbn.1 (by rw [← Bool.not_eq_true]; exact hvm)]
      omega

theorem findAllAux_count :
    ∀ (fuel limit : Nat) (g : Grid) (sols : List Grid),
      numZeros g < fuel → inRange g → noConflicts g → sols.length ≤ limit →
      (findAllAux fuel limit g sols).2.length =
        min limit (sols.length + Ncount g) := by
  intro fuel
  induction fuel with
  | zero =>
    intro limit g sols hfuel
    omega
  | succ fuel ih =>
    intro limit g sols hfuel hr hnc hlen
    simp only [findAllAux]
    by_cases hstop : sols.length ≥ limit
    · rw [if_pos hstop]
      have heq : sols.length = limit := Nat.le_antisymm hlen hstop
      show sols.length = min limit (sols.length + Ncount g)
      omega
    · rw [if_neg hstop]
      cases he : find_empty g with
      | none =>
        show (sols ++ [g]).length = min limit (sols.length + Ncount g)
        rw [List.length_append, Ncount_full he hr hnc]
        simp only [List.length_singleton]
        omega
      | some rc =>
        obtain ⟨r, c⟩ := rc
        show (findAllLoop (fun g2 s2 => findAllAux fuel limit g2 s2) r c
          digits g sols).2.length = min limit (sols.length + Ncount g)
        rw [findAllLoop_count (ih limit) digits
          (fun n hn => mem_digits_bounds hn) g sols (by omega) hr hnc
          (find_empty_zero he) hlen]
        rw [← Ncount_branch_sum (find_empty_zero he)]

/-! ### Claim C2 -/

theorem mem_CompSet {g : Grid} {f : SolGrid} :
    f ∈ CompSet g ↔ completes g (decode f) := by
  rw [CompSet, Finset.mem_filter]
  simp

/-- Counterexample to claim C2 as stated: the all-fives grid has every
cell in 0..9 and limit 2 is at least 1, yet `count_solutions` returns 1
(the full board is appended without any rule check) although no valid
completion of that grid exists, so the result is not `min limit N` and the
"exactly 1 certifies a unique solution" clause fails; moreover even on the
conflict-free puzzle `gTwo` with limit 1 the function returns exactly 1
although two distinct completions exist, so the certificate clause needs
limit at least 2.  The first instance forces the conflict-freeness
precondition of the amended claim, the second the limit-2 qualifier of
the uniqueness certificate. -/
theorem count_solutions_not_min_on_allFives :
    (count_solutions allFives 2 = 1 ∧ Ncount allFives = 0 ∧
      count_solutions allFives 2 ≠ min 2 (Ncount allFives)) ∧
    (is_valid_puzzle gTwo = true ∧ count_solutions gTwo 1 = 1 ∧
      1 < Ncount gTwo) := by
  have hN : Ncount allFives = 0 := by
    rw [Ncount, Finset.card_eq_zero, CompSet, Finset.filter_eq_empty_iff]
    intro f _ hcf
    have h1 : decode f 0 0 = 5 := hcf.1 0 0 (by decide)
    have h2 : decode f 0 1 = 5 := hcf.1 0 1 (by decide)
    exact hcf.2.2.1 0 0 1 (by decide) (by rw [h1]; omega) (by rw [h1, h2])
  have hcount : count_solutions allFives 2 = 1 := by decide
  have hmem1 : completes gTwo (decode (encode gTwoFull)) := by decide
  have hmem2 : completes gTwo (decode (encode gTwoAlt)) := by decide
  have hne : encode gTwoFull ≠ encode gTwoAlt := by decide
  refine ⟨⟨hcount, hN, by rw [hcount, hN]; decide⟩, by decide, by decide, ?_⟩
  rw [Ncount]
  refine Finset.one_lt_card.mpr
    ⟨encode gTwoFull, ?_, encode gTwoAlt, ?_, hne⟩
  · rw [mem_CompSet]
    exact hmem1
  · rw [mem_CompSet]
    exact hmem2

/-- Claim C2 (amended): for every conflict-free grid with cell values in
0..9 and every limit at least 1, `count_solutions` returns
`min limit N` where `N` is the number of distinct fully solved valid
grids agreeing with every non-zero cell of the input; in particular the
result lies in `[0, limit]`, it is 0 exactly when no completion exists
and, when the limit is at least 2, a result of exactly 1 certifies a
unique solution. -/
theorem count_solutions_eq_min (g : Grid) (limit : Nat) (hr : inRange g)
    (hvp : is_valid_puzzle g = true) (hl : 1 ≤ limit) :
    count_solutions g limit = min limit (Ncount g) ∧
    count_solutions g limit ≤ limit ∧
    (count_solutions g limit = 0 ↔ Ncount g = 0) ∧
    (2 ≤ limit → (count_solutions g limit = 1 ↔ Ncount g = 1)) := by
  have hmain : count_solutions g limit = min limit (Ncount g) := by
    have h82 : numZeros g < 82 := Nat.lt_of_le_of_lt (numZeros_le g) (by omega)
    have h := findAllAux_count 82 limit g [] h82 hr
      ((is_valid_puzzle_true_iff g).mp hvp) (by simp)
    simp only [List.length_nil, Nat.zero_add] at h
    rw [count_solutions]
    show (findAllAux 82 limit g []).2.length = min limit (Ncount g)
    exact h
  refine ⟨hmain, by omega, by omega, fun h2 => by omega⟩

theorem count_solutions_eq_min_witness :
    inRange gFull ∧ is_valid_puzzle gFull = true ∧ 1 ≤ 2 ∧
      (count_solutions gFull 2 = min 2 (Ncount gFull) ∧
      count_solutions gFull 2 ≤ 2 ∧
      (count_solutions gFull 2 = 0 ↔ Ncount gFull = 0) ∧
      (2 ≤ 2 → (count_solutions gFull 2 = 1 ↔ Ncount gFull = 1))) :=
  ⟨by decide, by decide, by decide,
    count_solutions_eq_min gFull 2 (by decide) (by decide) (by decide)⟩

/-! ### Claim C8: `count_solutions` never mutates the caller's grid -/

/-- Claim C8: `count_solutions` hands the search a private copy of the
caller's board (`deepcopy`, the identity on purely functional grids), and
the search itself returns its working board exactly as it received it
(every digit placed during the enumeration is reset to 0), so the caller's
grid after a call to `count_solutions` is cell-for-cell the grid before
the call. -/
theorem count_solutions_frame (g : Grid) (limit fuel : Nat)
    (sols : List Grid) :
    deepcopy g = g ∧ (findAllAux fuel limit g sols).1 = g ∧
      count_solutions g limit = (findAllAux 82 limit (deepcopy g) []).2.length :=
  ⟨rfl, findAllAux_restore fuel limit g sols, rfl⟩

/-! ### Claim C9: the search terminates, with fuel bounded by the number
of empty cells -/

theorem numZeros_pos {g : Grid} {r c : Fin 9} (h0 : g r c = 0) :
    1 ≤ numZeros g := by
  rw [numZeros, Nat.succ_le_iff, Finset.card_pos]
  exact ⟨(r, c), by simp [h0]⟩

theorem solveLoop_congr {S1 S2 : Grid → Bool × Grid}
    (hS1r : ∀ g0 : Grid, (S1 g0).1 = false → (S1 g0).2 = g0) {r c : Fin 9} :
    ∀ (ns : List Nat) (g : Grid), g r c = 0 →
      (∀ n ∈ ns, S1 (setCell g r c n) = S2 (setCell g r c n)) →
      solveLoop S1 r c ns g = solveLoop S2 r c ns g := by
  intro ns
  induction ns with
  | nil => intro g _ _; rfl
  | cons n ns ih =>
    intro g h0 hcong
    have hn := hcong n (List.mem_cons_self _ _)
    have hns : ∀ m ∈ ns, S1 (setCell g r c m) = S2 (setCell g r c m) :=
      fun m hm => hcong m (List.mem_cons_of_mem _ hm)
    simp only [solveLoop]
    by_cases hvm : is_valid_move g r c n = true
    · rw [if_pos hvm, if_pos hvm, ← hn]
      by_cases hp : (S1 (setCell g r c n)).1 = true
      · rw [if_pos hp, if_pos hp]
      · rw [Bool.not_eq_true] at hp
        rw [if_neg (by simp [hp]), if_neg (by simp [hp])]
        rw [hS1r _ hp, setCell_setCell_zero n h0]
        exact ih g h0 hns
    · rw [if_neg hvm, if_neg hvm]
      exact ih g h0 hns

theorem solveAux_fuel_indep :
    ∀ (m : Nat) (g : Grid) (f1 f2 : Nat), numZeros g ≤ m →
      numZeros g < f1 → numZeros g < f2 → solveAux f1 g = solveAux f2 g := by
  intro m
  induction m with
  | zero =>
    intro g f1 f2 hm h1 h2
    cases f1 with
    | zero => omega
    | succ k1 =>
      cases f2 with
      | zero => omega
      | succ k2 =>
        simp only [solveAux]
        cases he : find_empty g with
        | none => rfl
        | some rc =>
          obtain ⟨r, c⟩ := rc
          have := numZeros_pos (find_empty_zero he)
          omega
  | succ m ih =>
    intro g f1 f2 hm h1 h2
    cases f1 with
    | zero => omega
    | succ k1 =>
      cases f2 with
      | zero => omega
      | succ k2 =>
        simp only [solveAux]
        cases he : find_empty g with
        | none => rfl
        | some rc =>
          obtain ⟨r, c⟩ := rc
          have h0 := find_empty_zero he
          have hpos := numZeros_pos h0
          refine solveLoop_congr (solveAux_false_restore k1) digits g h0 ?_
          intro n hn
          have hn0 : n ≠ 0 := by
            have := (mem_digits_bounds hn).1
            omega
          have hlt := numZeros_setCell_lt h0 hn0
          exact ih (setCell g r c n) k1 k2 (by omega) (by omega) (by omega)

theorem findAllLoop_congr {S1 S2 : Grid → List Grid → Grid × List Grid}
    (hS1r : ∀ (g0 : Grid) (sols0 : List Grid), (S1 g0 sols0).1 = g0)
    {r c : Fin 9} :
    ∀ (ns : List Nat) (g : Grid) (sols : List Grid), g r c = 0 →
      (∀ n ∈ ns, ∀ sols0 : List Grid,
        S1 (setCell g r c n) sols0 = S2 (setCell g r c n) sols0) →
      findAllLoop S1 r c ns g sols = findAllLoop S2 r c ns g sols := by
  intro ns
  induction ns with
  | nil => intro g sols _ _; rfl
  | cons n ns ih =>
    intro g sols h0 hcong
    have hn := hcong n (List.mem_cons_self _ _)
    have hns : ∀ m ∈ ns, ∀ sols0 : List Grid,
        S1 (setCell g r c m) sols0 = S2 (setCell g r c m) sols0 :=
      fun m hm => hcong m (List.mem_cons_of_mem _ hm)
    simp only [findAllLoop]
    by_cases hvm : is_valid_move g r c n = true
    · rw [if_pos hvm, if_pos hvm, ← hn]
      rw [hS1r, setCell_setCell_zero n h0]
      exact ih g _ h0 hns
    · rw [if_neg hvm, if_neg hvm]
      exact ih g sols h0 hns

theorem findAllAux_fuel_indep :
    ∀ (m : Nat) (g : Grid) (limit f1 f2 : Nat) (sols : List Grid),
      numZeros g ≤ m → numZeros g < f1 → numZeros g < f2 →
      findAllAux f1 limit g sols = findAllAux f2 limit g sols := by
  intro m
  induction m with
  | zero =>
    intro g limit f1 f2 sols hm h1 h2
    cases f1 with
    | zero => omega
    | succ k1 =>
      cases f2 with
      | zero => omega
      | succ k2 =>
        simp only [findAllAux]
        by_cases hstop : sols.length ≥ limit
        · rw [if_pos hstop, if_pos hstop]
        · rw [if_neg hstop, if_neg hstop]
          cases he : find_empty g with
          | none => rfl
          | some rc =>
            obtain ⟨r, c⟩ := rc
            have := numZeros_pos (find_empty_zero he)
            omega
  | succ m ih =>
    intro g limit f1 f2 sols hm h1 h2
    cases f1 with
    | zero => omega
    | succ k1 =>
      cases f2 with
      | zero => omega
      | succ k2 =>
        simp only [findAllAux]
        by_cases hstop : sols.length ≥ limit
        · rw [if_pos hstop, if_pos hstop]
        · rw [if_neg hstop, if_neg hstop]
          cases he : find_empty g with
          | none => rfl
          | some rc =>
            obtain ⟨r, c⟩ := rc
            have h0 := find_empty_zero he
            have hpos := numZeros_pos h0
            refine findAllLoop_congr (findAllAux_restore k1 limit) digits
              g sols h0 ?_
            intro n hn sols0
            have hn0 : n ≠ 0 := by
              have := (mem_digits_bounds hn).1
              omega
            have hlt := numZeros_setCell_lt h0 hn0
            exact ih (setCell g r c n) limit k1 k2 sols0 (by omega) (by omega)
              (by omega)

/-- Claim C9: `solve` and `count_solutions` terminate on every grid with
values in 0..9.  In the fuel embedding this reads: each recursive call
strictly decreases the number of empty cells, which is bounded by 81, so
the result is the same for every fuel exceeding that number; in
particular fuel `numZeros g + 1` already computes the answer of the
fuel-82 functions `solve` and `count_solutions`. -/
theorem solver_terminates (g : Grid) (hr : inRange g) (f1 f2 limit : Nat)
    (sols : List Grid) (h1 : numZeros g < f1) (h2 : numZeros g < f2) :
    numZeros g ≤ 81 ∧
      (∀ (r c : Fin 9) (n : Nat), g r c = 0 → n ≠ 0 →
        numZeros (setCell g r c n) < numZeros g) ∧
      solveAux f1 g = solveAux f2 g ∧
      findAllAux f1 limit g sols = findAllAux f2 limit g sols ∧
      solve g = solveAux (numZeros g + 1) g ∧
      count_solutions g limit =
        (findAllAux (numZeros g + 1) limit g []).2.length := by
  have h81 := numZeros_le g
  refine ⟨h81, fun r c n h0 hn => numZeros_setCell_lt h0 hn,
    solveAux_fuel_indep (numZeros g) g f1 f2 le_rfl h1 h2,
    findAllAux_fuel_indep (numZeros g) g limit f1 f2 sols le_rfl h1 h2,
    ?_, ?_⟩
  · exact solveAux_fuel_indep (numZeros g) g 82 (numZeros g + 1) le_rfl
      (by omega) (by omega)
  · show (findAllAux 82 limit g []).2.length = _
    rw [findAllAux_fuel_indep (numZeros g) g limit 82 (numZeros g + 1) []
      le_rfl (by omega) (by omega)]

theorem solver_terminates_witness :
    inRange gFull ∧ numZeros gFull < 1 ∧ numZeros gFull < 82 ∧
      (numZeros gFull ≤ 81 ∧
      (∀ (r c : Fin 9) (n : Nat), gFull r c = 0 → n ≠ 0 →
        numZeros (setCell gFull r c n) < numZeros gFull) ∧
      solveAux 1 gFull = solveAux 82 gFull ∧
      findAllAux 1 2 gFull [] = findAllAux 82 2 gFull [] ∧
      solve gFull = solveAux (numZeros gFull + 1) gFull ∧
      count_solutions gFull 2 =
        (findAllAux (numZeros gFull + 1) 2 gFull []).2.length) :=
  ⟨by decide, by decide, by decide,
    solver_terminates gFull (by decide) 1 82 2 [] (by decide) (by decide)⟩

/-! ### Claim C10: unknown difficulty strings fall back to medium -/

/-- Claim C10: for every difficulty string that is none of "easy",
"medium", "hard", "expert", `generate_puzzle` does not fail: the clue
lookup silently yields the medium target 32 and the whole generation
behaves exactly as `generate_puzzle "medium"` would with the same random
choices. -/
theorem generate_puzzle_fallback (d : String) (h1 : d ≠ "easy")
    (h2 : d ≠ "medium") (h3 : d ≠ "hard") (h4 : d ≠ "expert")
    (nums0 nums1 nums2 : List Nat) (cells : List (Fin 9 × Fin 9)) :
    cluesFor d = 32 ∧
      generate_puzzle d nums0 nums1 nums2 cells =
        generate_puzzle "medium" nums0 nums1 nums2 cells := by
  have hc : cluesFor d = cluesFor "medium" := by
    rw [cluesFor, cluesFor, difficulty_levels, difficulty_levels,
      if_neg h1, if_neg h2, if_neg h3, if_neg h4]
    rfl
  refine ⟨by rw [hc]; rfl, ?_⟩
  rw [generate_puzzle, generate_puzzle, hc]

theorem generate_puzzle_fallback_witness :
    ("extreme" ≠ "easy" ∧ "extreme" ≠ "medium" ∧ "extreme" ≠ "hard" ∧
      "extreme" ≠ "expert") ∧
    cluesFor "extreme" = 32 ∧
      generate_puzzle "extreme" [] [] [] [] =
        generate_puzzle "medium" [] [] [] [] :=
  ⟨⟨by decide, by decide, by decide, by decide⟩,
    generate_puzzle_fallback "extreme" (by decide) (by decide) (by decide)
      (by decide) [] [] [] []⟩


/-- Pointwise value of the seeded grid: entries of the three lists inside the
three diagonal boxes (row-major index `3*i + j` within a box), `0` elsewhere. -/
theorem seedDiagonal_apply (n0 n1 n2 : List Nat) (i j : Fin 9) :
    seedDiagonal n0 n1 n2 i j =
      if i.val / 3 = 0 ∧ j.val / 3 = 0 then n0.getD (3 * (i.val % 3) + j.val % 3) 0
      else if i.val / 3 = 1 ∧ j.val / 3 = 1 then n1.getD (3 * (i.val % 3) + j.val % 3) 0
      else if i.val / 3 = 2 ∧ j.val / 3 = 2 then n2.getD (3 * (i.val % 3) + j.val % 3) 0
      else 0 := by
  fin_cases i <;> fin_cases j <;> rfl

theorem perm_digits_length {n : List Nat} (h : n.Perm digits) : n.length = 9 := by
  rw [h.length_eq]
  rfl

theorem perm_digits_getD_bounds {n : List Nat} (h : n.Perm digits) {k : Nat}
    (hk : k < 9) : 1 ≤ n.getD k 0 ∧ n.getD k 0 ≤ 9 := by
  have hlen : n.length = 9 := perm_digits_length h
  have hk2 : k < n.length := by omega
  rw [List.getD_eq_getElem?_getD, List.getElem?_eq_getElem hk2, Option.getD_some]
  exact mem_digits_iff.mp (h.mem_iff.mp (List.getElem_mem hk2))

theorem perm_digits_getD_inj {n : List Nat} (h : n.Perm digits) {k k' : Nat}
    (hk : k < 9) (hk' : k' < 9) (he : n.getD k 0 = n.getD k' 0) : k = k' := by
  have hlen : n.length = 9 := perm_digits_length h
  have hk2 : k < n.length := by omega
  have hk2' : k' < n.length := by omega
  have hnd : n.Nodup := h.nodup_iff.mpr digits_nodup
  rw [List.getD_eq_getElem?_getD, List.getElem?_eq_getElem hk2, Option.getD_some,
    List.getD_eq_getElem?_getD, List.getElem?_eq_getElem hk2', Option.getD_some] at he
  exact (List.Nodup.getElem_inj_iff hnd).mp he

/-- A non-zero cell of the seeded grid lies in a diagonal box. -/
theorem seedDiagonal_ne_zero {n0 n1 n2 : List Nat} {i j : Fin 9}
    (hne : seedDiagonal n0 n1 n2 i j ≠ 0) : i.val / 3 = j.val / 3 := by
  by_contra hb
  apply hne
  rw [seedDiagonal_apply]
  rw [if_neg (fun hc => hb (hc.1.trans hc.2.symm)),
    if_neg (fun hc => hb (hc.1.trans hc.2.symm)),
    if_neg (fun hc => hb (hc.1.trans hc.2.symm))]

/-- Value of the seeded grid inside diagonal box `b`. -/
theorem seedDiagonal_in_box (n0 n1 n2 : List Nat) {i j : Fin 9} {b : Nat}
    (hbi : i.val / 3 = b) (hbj : j.val / 3 = b) :
    seedDiagonal n0 n1 n2 i j =
      (if b = 0 then n0 else if b = 1 then n1 else n2).getD
        (3 * (i.val % 3) + j.val % 3) 0 := by
  rw [seedDiagonal_apply]
  have hb3 : b = 0 ∨ b = 1 ∨ b = 2 := by
    have := i.isLt
    omega
  rcases hb3 with hb | hb | hb <;> subst hb
  · rw [if_pos ⟨hbi, hbj⟩, if_pos rfl]
  · rw [if_neg (by omega), if_pos ⟨hbi, hbj⟩, if_neg (by omega), if_pos rfl]
  · rw [if_neg (by omega), if_neg (by omega), if_pos ⟨hbi, hbj⟩,
      if_neg (by omega), if_neg (by omega)]

/-- The Seed step of `generate_puzzle` always produces an in-range,
conflict-free board: for any three permutations of 1..9 written row-major
into the diagonal boxes 0, 4, 8 of the empty grid, every cell is at most 9
and `is_valid_puzzle` returns true.  (This is the first half of the seeding
claim; that `solve` then completes the seeded board is a separate
completability property.) -/
theorem seedDiagonal_valid (n0 n1 n2 : List Nat)
    (h0 : n0.Perm digits) (h1 : n1.Perm digits) (h2 : n2.Perm digits) :
    inRange (seedDiagonal n0 n1 n2) ∧
    is_valid_puzzle (seedDiagonal n0 n1 n2) = true := by
  have hperm : ∀ b : Nat,
      (if b = 0 then n0 else if b = 1 then n1 else n2).Perm digits := by
    intro b
    split_ifs <;> assumption
  constructor
  · intro i j
    rw [seedDiagonal_apply]
    split_ifs with hc0 hc1 hc2
    · exact (perm_digits_getD_bounds h0 (by omega)).2
    · exact (perm_digits_getD_bounds h1 (by omega)).2
    · exact (perm_digits_getD_bounds h2 (by omega)).2
    · omega
  · rw [is_valid_puzzle_true_iff]
    refine ⟨?_, ?_, ?_⟩
    · intro i j j' hjj' hne0 he
      have hbj : i.val / 3 = j.val / 3 := seedDiagonal_ne_zero hne0
      have hne0' : seedDiagonal n0 n1 n2 i j' ≠ 0 := by
        rw [← he]
        exact hne0
      have hbj' : i.val / 3 = j'.val / 3 := seedDiagonal_ne_zero hne0'
      rw [seedDiagonal_in_box n0 n1 n2 rfl hbj.symm,
        seedDiagonal_in_box n0 n1 n2 rfl hbj'.symm] at he
      have hk := perm_digits_getD_inj (hperm (i.val / 3))
        (show 3 * (i.val % 3) + j.val % 3 < 9 by omega)
        (show 3 * (i.val % 3) + j'.val % 3 < 9 by omega) he
      exact hjj' (Fin.ext (by omega))
    · intro i i' j hii' hne0 he
      have hbi : i.val / 3 = j.val / 3 := seedDiagonal_ne_zero hne0
      have hne0' : seedDiagonal n0 n1 n2 i' j ≠ 0 := by
        rw [← he]
        exact hne0
      have hbi' : i'.val / 3 = j.val / 3 := seedDiagonal_ne_zero hne0'
      have hbb : i'.val / 3 = i.val / 3 := by omega
      rw [seedDiagonal_in_box n0 n1 n2 rfl hbi.symm,
        seedDiagonal_in_box n0 n1 n2 hbb hbi.symm] at he
      have hk := perm_digits_getD_inj (hperm (i.val / 3))
        (show 3 * (i.val % 3) + j.val % 3 < 9 by omega)
        (show 3 * (i'.val % 3) + j.val % 3 < 9 by omega) he
      exact hii' (Fin.ext (by omega))
    · intro i j i' j' hi3 hj3 hpair hne0 he
      have hbi : i.val / 3 = j.val / 3 := seedDiagonal_ne_zero hne0
      have hne0' : seedDiagonal n0 n1 n2 i' j' ≠ 0 := by
        rw [← he]
        exact hne0
      have hbi' : i'.val / 3 = j'.val / 3 := seedDiagonal_ne_zero hne0'
      rw [seedDiagonal_in_box n0 n1 n2 rfl hbi.symm,
        seedDiagonal_in_box n0 n1 n2 hi3.symm (by omega)] at he
      have hk := perm_digits_getD_inj (hperm (i.val / 3))
        (show 3 * (i.val % 3) + j.val % 3 < 9 by omega)
        (show 3 * (i'.val % 3) + j'.val % 3 < 9 by omega) he
      have hieq : i = i' := Fin.ext (by omega)
      have hjeq : j = j' := Fin.ext (by omega)
      exact hpair (by rw [hieq, hjeq])

end Sudoku
